import Mathlib

/-!
Shallow embedding of the LBANN fully connected layer
(`src/layers/lbann_layer_fully_connected.cpp` together with the base-layer
declarations in `include/lbann/layers/lbann_layer.hpp`).

Matrices are embedded as Mathlib `Matrix (Fin rows) (Fin cols) ℝ`; the C++
`DataType` (a floating-point scalar) is modelled by the real numbers, so the
theorems below speak about the exact arithmetic the code is written against.
The distributed-matrix substrate (Elemental) is collapsed to the global
matrix it represents: `Gemm`, `Zeros`, `Copy`, `Axpy`, `ColumnTwoNorms` and
element updates are translated call by call, and the per-step column views
(bound by the base layer to the first `b` columns of each mini-batch-width
buffer) become an explicit column-restriction operator.
-/

set_option linter.unusedVariables false

namespace LBann

open Matrix

/-- Elemental `Gemm(NORMAL, NORMAL, alpha, A, B, beta, C)`:
returns `alpha * A * B + beta * C`. -/
def gemmNN {m k n : ℕ} (alpha : ℝ) (A : Matrix (Fin m) (Fin k) ℝ)
    (B : Matrix (Fin k) (Fin n) ℝ) (beta : ℝ) (C : Matrix (Fin m) (Fin n) ℝ) :
    Matrix (Fin m) (Fin n) ℝ :=
  Matrix.of fun i j => alpha * (∑ l, A i l * B l j) + beta * C i j

/-- Elemental `Gemm(TRANSPOSE, NORMAL, alpha, A, B, beta, C)`:
returns `alpha * Aᵀ * B + beta * C`. -/
def gemmTN {m k n : ℕ} (alpha : ℝ) (A : Matrix (Fin k) (Fin m) ℝ)
    (B : Matrix (Fin k) (Fin n) ℝ) (beta : ℝ) (C : Matrix (Fin m) (Fin n) ℝ) :
    Matrix (Fin m) (Fin n) ℝ :=
  Matrix.of fun i j => alpha * (∑ l, A l i * B l j) + beta * C i j

/-- Elemental `Gemm(NORMAL, TRANSPOSE, alpha, A, B, beta, C)`:
returns `alpha * A * Bᵀ + beta * C`. -/
def gemmNT {m k n : ℕ} (alpha : ℝ) (A : Matrix (Fin m) (Fin k) ℝ)
    (B : Matrix (Fin n) (Fin k) ℝ) (beta : ℝ) (C : Matrix (Fin m) (Fin n) ℝ) :
    Matrix (Fin m) (Fin n) ℝ :=
  Matrix.of fun i j => alpha * (∑ l, A i l * B j l) + beta * C i j

/-- Modelled from the spec: the base layer's `fp_set_std_matrix_view`
(implemented in `lbann_layer.cpp`, which is not under `src/`) rebinds each
mini-batch-width buffer's view to its first `b ≤ B` columns, `b` being the
effective width of the current (possibly partial) mini-batch.  `viewCols`
is that view: the restriction of a `(rows × B)` matrix to its first `b`
columns. -/
def viewCols {r B : ℕ} (b : ℕ) (hb : b ≤ B) (M : Matrix (Fin r) (Fin B) ℝ) :
    Matrix (Fin r) (Fin b) ℝ :=
  Matrix.of fun i j => M i (Fin.castLE hb j)

/-- `FullyConnectedLayer::fp_linearity` (lines 171-178): a single
`Gemm(NORMAL, NORMAL, 1, W, A_prev, 0, Z)` over the full configured-width
buffers (no column views are taken in the forward linearity), followed by
`Copy(Z, A)`.  Returns the pair `(preactivations, activations)`; `Zold` and
`Aold` are the previous contents of those buffers. -/
def fp_linearity {N P B : ℕ} (W : Matrix (Fin (N + 1)) (Fin (P + 1)) ℝ)
    (Aprev : Matrix (Fin (P + 1)) (Fin B) ℝ)
    (Zold Aold : Matrix (Fin (N + 1)) (Fin B) ℝ) :
    Matrix (Fin (N + 1)) (Fin B) ℝ × Matrix (Fin (N + 1)) (Fin B) ℝ :=
  let Z := gemmNN 1 W Aprev 0 Zold
  (Z, Z)

/-- `FullyConnectedLayer::bp_linearity` (lines 180-187):
`Gemm(TRANSPOSE, NORMAL, 1, W_v, Enext_v, 0, E_v)` followed by
`Gemm(NORMAL, TRANSPOSE, 1/effectiveMiniBatchSize, Enext_v, Aprev_v, 0, dW_v)`.
The weights view `W_v` and the gradient view `dW_v` cover the full matrices
(bound that way at `setup`, lines 167-168); the mini-batch-width buffers enter
through their `b`-column views.  Returns `(error signal view, weight
gradient)`; `Eold` and `dWold` are the overwritten previous contents. -/
noncomputable def bp_linearity {N P B : ℕ} (b : ℕ) (hb : b ≤ B) (effectiveMiniBatchSize : ℕ)
    (W : Matrix (Fin (N + 1)) (Fin (P + 1)) ℝ)
    (Enext : Matrix (Fin (N + 1)) (Fin B) ℝ)
    (Aprev : Matrix (Fin (P + 1)) (Fin B) ℝ)
    (Eold : Matrix (Fin (P + 1)) (Fin b) ℝ)
    (dWold : Matrix (Fin (N + 1)) (Fin (P + 1)) ℝ) :
    Matrix (Fin (P + 1)) (Fin b) ℝ × Matrix (Fin (N + 1)) (Fin (P + 1)) ℝ :=
  let Ev := gemmTN 1 W (viewCols b hb Enext) 0 Eold
  let dW := gemmNT (1 / (effectiveMiniBatchSize : ℝ)) (viewCols b hb Enext)
      (viewCols b hb Aprev) 0 dWold
  (Ev, dW)

/-- Elemental `Zeros(M, h, w)`: the all-zero `h × w` matrix. -/
def zerosMat (h w : ℕ) : Matrix (Fin h) (Fin w) ℝ := 0

/-- One element write at global coordinates `(r, c)`.  The code performs it as
`SetLocal` guarded by `IsLocal(r, c)`, i.e. exactly the process owning the
cell writes it; on the global matrix the result is this update. -/
def setEntry {h w : ℕ} (M : Matrix (Fin h) (Fin w) ℝ) (r c : ℕ) (v : ℝ) :
    Matrix (Fin h) (Fin w) ℝ :=
  Matrix.of fun i j => if (i : ℕ) = r ∧ (j : ℕ) = c then v else M i j

/-- Modelled from the spec: the `weight_initialization` enumeration is
declared in a header that is not under `src/`; it is embedded as its
underlying integer code so that unrecognized values (the `default` branch of
the `switch` in `setup`) are representable.  `zero` is the documented
default policy. -/
def wiZero : ℕ := 0

/-- `weight_initialization::uniform`. -/
def wiUniform : ℕ := 1

/-- `weight_initialization::normal`. -/
def wiNormal : ℕ := 2

/-- `weight_initialization::glorot_normal`. -/
def wiGlorotNormal : ℕ := 3

/-- `weight_initialization::glorot_uniform`. -/
def wiGlorotUniform : ℕ := 4

/-- `weight_initialization::he_normal`. -/
def wiHeNormal : ℕ := 5

/-- `weight_initialization::he_uniform`. -/
def wiHeUniform : ℕ := 6

/-- Modelled from the spec: `gaussian_fill(M, h, w, mean, stddev)` (declared
in `lbann_random.hpp`, not under `src/`) fills `M` with i.i.d. normal draws
of the given mean and standard deviation; `g` is the underlying stream of
standard-normal draws, so entry `(i, j)` becomes `mean + stddev * g i j`. -/
def gaussian_fill (h w : ℕ) (mean stddev : ℝ) (g : ℕ → ℕ → ℝ) :
    Matrix (Fin h) (Fin w) ℝ :=
  Matrix.of fun i j => mean + stddev * g (i : ℕ) (j : ℕ)

/-- Modelled from the spec: `uniform_fill(M, h, w, center, radius)` (declared
in `lbann_random.hpp`, not under `src/`) fills `M` with i.i.d. draws uniform
on `[center - radius, center + radius]`; `u` is the underlying stream of
draws uniform on `[-1, 1]`, so entry `(i, j)` becomes
`center + radius * u i j`. -/
def uniform_fill (h w : ℕ) (center radius : ℝ) (u : ℕ → ℕ → ℝ) :
    Matrix (Fin h) (Fin w) ℝ :=
  Matrix.of fun i j => center + radius * u (i : ℕ) (j : ℕ)

/-- The weight-matrix part of `FullyConnectedLayer::setup` (lines 90-138):
`Zeros(W, N+1, P+1)`, the owning process sets `W (N, P) = 1`, and the
`switch` on the initialization policy fills the `View` covering rows
`0..N-1`, columns `0..P-1` (writes through the view land in `W`); the
`default` branch, shared with the `zero` case, zeroes that sub-block. -/
noncomputable def setup_weights (init N P : ℕ) (g u : ℕ → ℕ → ℝ) :
    Matrix (Fin (N + 1)) (Fin (P + 1)) ℝ :=
  let W0 := setEntry (zerosMat (N + 1) (P + 1)) N P 1
  let sub : Matrix (Fin N) (Fin P) ℝ :=
    if init = wiUniform then uniform_fill N P 0 1 u
    else if init = wiNormal then gaussian_fill N P 0 1 g
    else if init = wiGlorotNormal then
      gaussian_fill N P 0 (Real.sqrt (2 / ((P + N : ℕ) : ℝ))) g
    else if init = wiGlorotUniform then
      uniform_fill N P 0 (Real.sqrt (3 * (2 / ((P + N : ℕ) : ℝ)))) u
    else if init = wiHeNormal then
      gaussian_fill N P 0 (Real.sqrt (1 / (P : ℝ))) g
    else if init = wiHeUniform then
      uniform_fill N P 0 (Real.sqrt (3 * (1 / (P : ℝ)))) u
    else zerosMat N P
  Matrix.of fun i j =>
    if h : (i : ℕ) < N ∧ (j : ℕ) < P then sub ⟨i, h.1⟩ ⟨j, h.2⟩ else W0 i j

/-- Example standard-normal draw stream for concrete witnesses. -/
def gex : ℕ → ℕ → ℝ := fun i j => ((i + 2 * j + 1 : ℕ) : ℝ)

/-- Example uniform draw stream for concrete witnesses. -/
def uex : ℕ → ℕ → ℝ := fun i j => ((i + 3 * j + 2 : ℕ) : ℝ)

/-- Elemental `ColumnTwoNorms(deltas, norms)`: the vector of Euclidean
norms of the columns of `deltas`; `norms` has one row per column of
`deltas`. -/
noncomputable def columnTwoNorms {h w : ℕ} (D : Matrix (Fin h) (Fin w) ℝ) :
    Fin w → ℝ :=
  fun j => Real.sqrt (∑ i, (D i j) ^ 2)

/-- The local loop of `computeCost` on one process: the sum of the rows of
`norms` held by `rank`, the distribution being abstracted as an ownership
map from rows of `norms` to processes. -/
noncomputable def localNormSum {h w np : ℕ} (D : Matrix (Fin h) (Fin w) ℝ)
    (owner : Fin w → Fin np) (rank : Fin np) : ℝ :=
  ∑ j ∈ Finset.univ.filter (fun j => owner j = rank), columnTwoNorms D j

/-- `FullyConnectedLayer::computeCost` (lines 189-202): column two-norms of
the residual, a local sum of the locally held rows of `norms`, one
`mpi::AllReduce` sum over the distribution communicator of `norms` (summing
the per-rank partial sums), and division by `norms.Height()`, the global row
count of the norms vector. -/
noncomputable def computeCost {h w np : ℕ} (D : Matrix (Fin h) (Fin w) ℝ)
    (owner : Fin w → Fin np) : ℝ :=
  (∑ rank, localNormSum D owner rank) / w

/-- Modelled from the spec: the `execution_mode` enumeration is declared in a
header that is not under `src/`; training is distinguished from the
evaluation-style modes. -/
inductive execution_mode where
  | training
  | validation
  | testing
  deriving DecidableEq

/-- The per-layer state owned by a `Layer`: the weight-bias matrix, its
gradient, and the mini-batch-width buffers. -/
structure LayerState (N P B : ℕ) where
  weights : Matrix (Fin (N + 1)) (Fin (P + 1)) ℝ
  weights_gradient : Matrix (Fin (N + 1)) (Fin (P + 1)) ℝ
  preactivations : Matrix (Fin (N + 1)) (Fin B) ℝ
  activations : Matrix (Fin (N + 1)) (Fin B) ℝ
  error_signal : Matrix (Fin (P + 1)) (Fin B) ℝ

/-- `FullyConnectedLayer::update` (lines 212-218): in training mode it hands
`(dW, W)` to `optimizer->update_weight_bias_matrix`, which rewrites the
weights in place; in every other mode nothing is touched; it returns `true`
unconditionally. -/
def FullyConnectedLayer_update {N P B : ℕ} (mode : execution_mode)
    (optimizer_update :
      Matrix (Fin (N + 1)) (Fin (P + 1)) ℝ → Matrix (Fin (N + 1)) (Fin (P + 1)) ℝ
        → Matrix (Fin (N + 1)) (Fin (P + 1)) ℝ)
    (st : LayerState N P B) : LayerState N P B × Bool :=
  if mode = execution_mode.training then
    ({ st with weights := optimizer_update st.weights_gradient st.weights }, true)
  else (st, true)

/-- `Layer::update` (lbann_layer.hpp line 60): the base-class default is a
no-op that returns `false`. -/
def Layer_update {N P B : ℕ} (st : LayerState N P B) : LayerState N P B × Bool :=
  (st, false)

/-- Example residual matrix whose column 0 has two-norm 5. -/
def D5 : Matrix (Fin 2) (Fin 2) ℝ := !![3, 0; 4, 0]

/-- Single-process ownership map for `D5`. -/
def owner1 : Fin 2 → Fin 1 := fun _ => 0

/-- Example layer state used by the update witness. -/
def stEx : LayerState 1 1 2 :=
  { weights := !![1, 2; 3, 4], weights_gradient := 0, preactivations := 0,
    activations := 0, error_signal := 0 }

/-- The loop indices of the `checkGradient` sweep (lines 255-256): every
`(row, col)` of the weight matrix in row-major order. -/
def gcIndices (h w : ℕ) : List (ℕ × ℕ) :=
  (List.range h).flatMap fun r => (List.range w).map fun c => (r, c)

/-- `SetLocal(r, c, GetLocal(r, c) + v)` at global coordinates: add `v` to
entry `(r, c)` (the `IsLocal` guard means exactly the owning process runs
it; globally the result is this update). -/
def addEntry {h w : ℕ} (M : Matrix (Fin h) (Fin w) ℝ) (r c : ℕ) (v : ℝ) :
    Matrix (Fin h) (Fin w) ℝ :=
  Matrix.of fun i j => if (i : ℕ) = r ∧ (j : ℕ) = c then M i j + v else M i j

/-- The mutable state of the `checkGradient` sweep: the two perturbed weight
copies, the two activation-delta scratch matrices, the two gradient
accumulators, and the previous perturbation coordinates. -/
structure GradCheckState (N P B : ℕ) where
  wbE1 : Matrix (Fin (N + 1)) (Fin (P + 1)) ℝ
  wbE2 : Matrix (Fin (N + 1)) (Fin (P + 1)) ℝ
  actsE1 : Matrix (Fin (N + 1)) (Fin B) ℝ
  actsE2 : Matrix (Fin (N + 1)) (Fin B) ℝ
  grad_diff : ℝ
  grad_sum : ℝ
  prow : ℕ
  pcol : ℕ

/-- One iteration of the `checkGradient` sweep (lines 255-339): undo the
previous perturbation at `(prow, pcol)`, apply `+Epsilon`/`-Epsilon` at
`(row, col)`, then the only live arithmetic of the body —
`Axpy(-1, Acts, Acts_E1)` and `Axpy(-1, Acts, Acts_E2)` (the forward-pass
recomputations at lines 280-291 are commented out); `grad_diff` and
`grad_sum` are not touched; finally `(prow, pcol) := (row, col)`. -/
def gradCheckStep {N P B : ℕ} (Epsilon : ℝ)
    (acts : Matrix (Fin (N + 1)) (Fin B) ℝ)
    (st : GradCheckState N P B) (rc : ℕ × ℕ) : GradCheckState N P B :=
  { wbE1 := addEntry (addEntry st.wbE1 st.prow st.pcol (-Epsilon)) rc.1 rc.2 Epsilon
    wbE2 := addEntry (addEntry st.wbE2 st.prow st.pcol Epsilon) rc.1 rc.2 (-Epsilon)
    actsE1 := st.actsE1 - acts
    actsE2 := st.actsE2 - acts
    grad_diff := st.grad_diff
    grad_sum := st.grad_sum
    prow := rc.1
    pcol := rc.2 }

/-- `FullyConnectedLayer::checkGradient` (lines 220-343) on one process (so
every `IsLocal` test succeeds and local coordinates coincide with global
ones): the scratch weight copies start as `W` perturbed at `(0, 0)` by
`+Epsilon`/`-Epsilon`, the activation deltas and both accumulators start at
zero, the row-major sweep runs, and `sqrt(grad_diff / grad_sum)` is
returned alongside the final state. -/
noncomputable def checkGradient {N P B : ℕ} (Epsilon : ℝ)
    (W : Matrix (Fin (N + 1)) (Fin (P + 1)) ℝ)
    (acts : Matrix (Fin (N + 1)) (Fin B) ℝ) : GradCheckState N P B × ℝ :=
  let init : GradCheckState N P B :=
    { wbE1 := addEntry W 0 0 Epsilon
      wbE2 := addEntry W 0 0 (-Epsilon)
      actsE1 := 0
      actsE2 := 0
      grad_diff := 0
      grad_sum := 0
      prow := 0
      pcol := 0 }
  let final := (gcIndices (N + 1) (P + 1)).foldl (gradCheckStep Epsilon acts) init
  (final, Real.sqrt (final.grad_diff / final.grad_sum))

/-- Example unperturbed activations matrix for the gradient-checker
counterexample. -/
def actsEx : Matrix (Fin 2) (Fin 1) ℝ := !![1; 1]

/-- Example weight matrix (N = 1, P = 1) used by concrete witnesses. -/
def Wex : Matrix (Fin 2) (Fin 2) ℝ := !![1, 2; 3, 4]

/-- Example incoming error signal (N = 1, B = 2) used by concrete witnesses. -/
def Eex : Matrix (Fin 2) (Fin 2) ℝ := !![1, 5; 2, 6]

/-- Example previous activations (P = 1, B = 2) used by concrete witnesses. -/
def Aex : Matrix (Fin 2) (Fin 2) ℝ := !![1, 7; 1, 8]

/-- Variant of `Eex` agreeing on column 0 and differing on the tail column. -/
def Eex' : Matrix (Fin 2) (Fin 2) ℝ := !![1, 9; 2, 10]

/-- Variant of `Aex` agreeing on column 0 and differing on the tail column. -/
def Aex' : Matrix (Fin 2) (Fin 2) ℝ := !![1, 11; 1, 12]

/-- C1: for every backward step with effective mini-batch size `m` and view
width `b`, `bp_linearity` computes, over the view-restricted sub-matrices,
the propagated error signal `E = Wᵀ * E_next` of shape `(P+1) × b` and the
weight gradient `dW = (1/m) • (E_next * A_prevᵀ)` of shape `(N+1) × (P+1)`,
the scaling divisor being the effective mini-batch size `m`, not the local
column count `b`. -/
theorem bp_linearity_formula {N P B : ℕ} (b : ℕ) (hb : b ≤ B) (m : ℕ)
    (W : Matrix (Fin (N + 1)) (Fin (P + 1)) ℝ)
    (Enext : Matrix (Fin (N + 1)) (Fin B) ℝ)
    (Aprev : Matrix (Fin (P + 1)) (Fin B) ℝ)
    (Eold : Matrix (Fin (P + 1)) (Fin b) ℝ)
    (dWold : Matrix (Fin (N + 1)) (Fin (P + 1)) ℝ) :
    (bp_linearity b hb m W Enext Aprev Eold dWold).1
        = Wᵀ * viewCols b hb Enext
      ∧ (bp_linearity b hb m W Enext Aprev Eold dWold).2
        = (1 / (m : ℝ)) • (viewCols b hb Enext * (viewCols b hb Aprev)ᵀ) := by
  constructor
  · ext i j
    simp [bp_linearity, gemmTN, Matrix.mul_apply, Matrix.transpose_apply]
  · ext i j
    simp [bp_linearity, gemmNT, Matrix.mul_apply, Matrix.transpose_apply,
      Matrix.smul_apply, smul_eq_mul, Finset.mul_sum]

/-- Witness for C1 at the concrete instance `b = 1 ≤ B = 2`, `m = 4`. -/
theorem bp_linearity_formula_witness :
    (1 : ℕ) ≤ 2
    ∧ ((bp_linearity 1 (by norm_num) 4 Wex Eex Aex 0 0).1
          = Wexᵀ * viewCols 1 (by norm_num) Eex
        ∧ (bp_linearity 1 (by norm_num) 4 Wex Eex Aex 0 0).2
          = (1 / (4 : ℝ)) • (viewCols 1 (by norm_num) Eex
              * (viewCols 1 (by norm_num) Aex)ᵀ)) :=
  ⟨by norm_num, bp_linearity_formula 1 (by norm_num) 4 Wex Eex Aex 0 0⟩

/-- C2: two backward steps whose inputs agree on the first `b` columns of
`A_prev` and `E_next` but differ arbitrarily in the tail columns (and in the
overwritten previous buffer contents) produce the identical weight gradient
`dW`. -/
theorem bp_gradient_tail_independent {N P B : ℕ} (b : ℕ) (hb : b ≤ B) (m : ℕ)
    (W : Matrix (Fin (N + 1)) (Fin (P + 1)) ℝ)
    (Enext Enext2 : Matrix (Fin (N + 1)) (Fin B) ℝ)
    (Aprev Aprev2 : Matrix (Fin (P + 1)) (Fin B) ℝ)
    (Eold Eold2 : Matrix (Fin (P + 1)) (Fin b) ℝ)
    (dWold dWold2 : Matrix (Fin (N + 1)) (Fin (P + 1)) ℝ)
    (hE : ∀ (i : Fin (N + 1)) (j : Fin B), (j : ℕ) < b → Enext i j = Enext2 i j)
    (hA : ∀ (i : Fin (P + 1)) (j : Fin B), (j : ℕ) < b → Aprev i j = Aprev2 i j) :
    (bp_linearity b hb m W Enext Aprev Eold dWold).2
      = (bp_linearity b hb m W Enext2 Aprev2 Eold2 dWold2).2 := by
  have hlt : ∀ l : Fin b, ((Fin.castLE hb l : Fin B) : ℕ) < b := fun l => l.isLt
  ext i j
  simp only [bp_linearity, gemmNT, viewCols, Matrix.of_apply, zero_mul, add_zero]
  congr 1
  exact Finset.sum_congr rfl fun l _ => by
    rw [hE i (Fin.castLE hb l) (hlt l), hA j (Fin.castLE hb l) (hlt l)]

/-- Witness for C2: the concrete inputs `Eex, Aex` and `Eex', Aex'` agree on
column 0 (`b = 1`) and differ in the tail column, yet yield the same `dW`. -/
theorem bp_gradient_tail_independent_witness :
    ((∀ (i : Fin 2) (j : Fin 2), (j : ℕ) < 1 → Eex i j = Eex' i j)
      ∧ (∀ (i : Fin 2) (j : Fin 2), (j : ℕ) < 1 → Aex i j = Aex' i j))
    ∧ (bp_linearity 1 (by norm_num) 4 Wex Eex Aex 0 0).2
        = (bp_linearity 1 (by norm_num) 4 Wex Eex' Aex' 0 0).2 := by
  have hE : ∀ (i : Fin 2) (j : Fin 2), (j : ℕ) < 1 → Eex i j = Eex' i j := by
    intro i j hj
    fin_cases j
    · fin_cases i <;> rfl
    · exact absurd hj (by norm_num)
  have hA : ∀ (i : Fin 2) (j : Fin 2), (j : ℕ) < 1 → Aex i j = Aex' i j := by
    intro i j hj
    fin_cases j
    · fin_cases i <;> rfl
    · exact absurd hj (by norm_num)
  exact ⟨⟨hE, hA⟩,
    bp_gradient_tail_independent 1 (by norm_num) 4 Wex Eex Eex' Aex Aex'
      0 0 0 0 hE hA⟩

/-- C3: `fp_linearity` computes the preactivations as the dense product
`Z = W * A_prev` over the full configured-mini-batch-width buffers (every
column `j : Fin B`, with no view restriction and no dependence on the old
buffer contents), and sets the activations equal to `Z` before the
nonlinearity hook runs. -/
theorem fp_linearity_full_width {N P B : ℕ}
    (W : Matrix (Fin (N + 1)) (Fin (P + 1)) ℝ)
    (Aprev : Matrix (Fin (P + 1)) (Fin B) ℝ)
    (Zold Aold : Matrix (Fin (N + 1)) (Fin B) ℝ) :
    fp_linearity W Aprev Zold Aold = (W * Aprev, W * Aprev) := by
  have hZ : gemmNN 1 W Aprev 0 Zold = W * Aprev := by
    ext i j
    simp [gemmNN, Matrix.mul_apply]
  simp [fp_linearity, hZ]

/-- C4: for all valid neuron counts `N`, `P`, after `setup` under the `zero`
initialization policy, the weight-bias matrix has shape `(N+1) × (P+1)` (its
index types), its row `N` equals `[0, …, 0, 1]` — all zeros except entry
`(N, P) = 1`, the single cell written through the local-ownership check —
and every other entry of the matrix is zero, for every random stream. -/
theorem setup_zero_weights (N P : ℕ) (g u : ℕ → ℕ → ℝ) :
    setup_weights wiZero N P g u
      = Matrix.of fun (i : Fin (N + 1)) (j : Fin (P + 1)) =>
          if (i : ℕ) = N ∧ (j : ℕ) = P then (1 : ℝ) else 0 := by
  ext i j
  by_cases h : (i : ℕ) < N ∧ (j : ℕ) < P
  · have hne : ¬((i : ℕ) = N ∧ (j : ℕ) = P) := by omega
    simp [setup_weights, wiZero, wiUniform, wiNormal, wiGlorotNormal,
      wiGlorotUniform, wiHeNormal, wiHeUniform, h, hne, zerosMat, setEntry]
  · simp [setup_weights, wiZero, wiUniform, wiNormal, wiGlorotNormal,
      wiGlorotUniform, wiHeNormal, wiHeUniform, h, zerosMat, setEntry]

/-- C5: for every initialization policy code, `setup` writes sampled values
only into the `N × P` sub-block: outside it the matrix is `1` at `(N, P)` and
`0` elsewhere (in particular the bias column `P` is zero in rows `0..N-1`);
inside it the policies scale the draws by std `sqrt(2/(P+N))`
(`glorot_normal`), half-width `sqrt(3·2/(P+N))` (`glorot_uniform`), std
`sqrt(1/P)` (`he_normal`), half-width `sqrt(3/P)` (`he_uniform`); and any
unrecognized policy code behaves exactly as the `zero` policy. -/
theorem setup_subblock_params (init N P : ℕ) (g u : ℕ → ℕ → ℝ) :
    (∀ (i : Fin (N + 1)) (j : Fin (P + 1)), ¬((i : ℕ) < N ∧ (j : ℕ) < P) →
        setup_weights init N P g u i j
          = if (i : ℕ) = N ∧ (j : ℕ) = P then (1 : ℝ) else 0)
    ∧ (∀ i : Fin (N + 1), (i : ℕ) < N →
        setup_weights init N P g u i ⟨P, Nat.lt_succ_self P⟩ = 0)
    ∧ (∀ (i : Fin (N + 1)) (j : Fin (P + 1)), (i : ℕ) < N → (j : ℕ) < P →
        (init = wiGlorotNormal →
          setup_weights init N P g u i j
            = Real.sqrt (2 / ((P : ℝ) + (N : ℝ))) * g (i : ℕ) (j : ℕ))
        ∧ (init = wiGlorotUniform →
          setup_weights init N P g u i j
            = Real.sqrt (3 * (2 / ((P : ℝ) + (N : ℝ)))) * u (i : ℕ) (j : ℕ))
        ∧ (init = wiHeNormal →
          setup_weights init N P g u i j
            = Real.sqrt (1 / (P : ℝ)) * g (i : ℕ) (j : ℕ))
        ∧ (init = wiHeUniform →
          setup_weights init N P g u i j
            = Real.sqrt (3 / (P : ℝ)) * u (i : ℕ) (j : ℕ)))
    ∧ (init ∉ [wiZero, wiUniform, wiNormal, wiGlorotNormal, wiGlorotUniform,
        wiHeNormal, wiHeUniform] →
        setup_weights init N P g u = setup_weights wiZero N P g u) := by
  refine ⟨?_, ?_, ?_, ?_⟩
  · intro i j h
    simp [setup_weights, h, setEntry, zerosMat]
  · intro i h
    have hnot : ¬((i : ℕ) < N ∧ ((⟨P, Nat.lt_succ_self P⟩ : Fin (P + 1)) : ℕ) < P) := by
      simp
    have hiN : (i : ℕ) ≠ N := by omega
    simp [setup_weights, hnot, hiN, setEntry, zerosMat]
  · intro i j hi hj
    have hcast : ((P + N : ℕ) : ℝ) = (P : ℝ) + (N : ℝ) := by push_cast; ring
    refine ⟨?_, ?_, ?_, ?_⟩
    · intro hinit
      subst hinit
      simp [setup_weights, wiGlorotNormal, wiUniform, wiNormal, hi, hj,
        gaussian_fill, hcast]
    · intro hinit
      subst hinit
      simp [setup_weights, wiGlorotUniform, wiUniform, wiNormal,
        wiGlorotNormal, hi, hj, uniform_fill, hcast]
    · intro hinit
      subst hinit
      simp [setup_weights, wiHeNormal, wiUniform, wiNormal, wiGlorotNormal,
        wiGlorotUniform, hi, hj, gaussian_fill]
    · intro hinit
      subst hinit
      simp [setup_weights, wiHeUniform, wiUniform, wiNormal, wiGlorotNormal,
        wiGlorotUniform, wiHeNormal, hi, hj, uniform_fill]
      exact Or.inl (div_eq_mul_inv _ _).symm
  · intro hmem
    simp only [List.mem_cons, List.mem_singleton, List.not_mem_nil, wiZero,
      wiUniform, wiNormal, wiGlorotNormal, wiGlorotUniform, wiHeNormal,
      wiHeUniform, not_or] at hmem
    obtain ⟨h0, h1, h2, h3, h4, h5, h6, -⟩ := hmem
    ext i j
    by_cases h : (i : ℕ) < N ∧ (j : ℕ) < P
    · simp [setup_weights, wiZero, wiUniform, wiNormal, wiGlorotNormal,
        wiGlorotUniform, wiHeNormal, wiHeUniform, h, h1, h2, h3, h4, h5, h6,
        zerosMat]
    · simp [setup_weights, h]

/-- Witness for C5 at `N = P = 1`: entry `(1, 1)` is the forced `1`, entry
`(0, 0)` under `glorot_normal` is `sqrt(2/(1+1))` times the draw, and the
unrecognized code `42` reproduces the `zero` policy. -/
theorem setup_subblock_params_witness :
    (¬(((1 : Fin 2) : ℕ) < 1 ∧ ((1 : Fin 2) : ℕ) < 1)
      ∧ ((0 : Fin 2) : ℕ) < 1
      ∧ (42 : ℕ) ∉ [wiZero, wiUniform, wiNormal, wiGlorotNormal,
          wiGlorotUniform, wiHeNormal, wiHeUniform])
    ∧ setup_weights wiGlorotNormal 1 1 gex uex 1 1
        = (if ((1 : Fin 2) : ℕ) = 1 ∧ ((1 : Fin 2) : ℕ) = 1 then (1 : ℝ) else 0)
    ∧ setup_weights wiGlorotNormal 1 1 gex uex 0 0
        = Real.sqrt (2 / (((1 : ℕ) : ℝ) + ((1 : ℕ) : ℝ)))
            * gex ((0 : Fin 2) : ℕ) ((0 : Fin 2) : ℕ)
    ∧ setup_weights 42 1 1 gex uex = setup_weights wiZero 1 1 gex uex := by
  refine ⟨⟨by decide, by decide, by decide⟩, ?_, ?_, ?_⟩
  · exact (setup_subblock_params wiGlorotNormal 1 1 gex uex).1 1 1 (by decide)
  · exact ((setup_subblock_params wiGlorotNormal 1 1 gex uex).2.2.1 0 0
      (by decide) (by decide)).1 rfl
  · exact (setup_subblock_params 42 1 1 gex uex).2.2.2 (by decide)

/-- C6 counterexample: a backward step whose incoming error signal has a
nonzero augmentation row leaves a nonzero augmentation row in `dW` — the
claim that row `N` of the gradient is all zeros after every `bp_linearity`
is false, because the second `Gemm` overwrites the whole gradient matrix
with `beta = 0`. -/
theorem bp_aug_row_counterexample :
    (bp_linearity (N := 1) (P := 0) (B := 1) 1 (le_refl 1) 1
        !![(0 : ℝ); 0] !![0; 1] !![1] 0 0).2 1 0 ≠ 0 := by
  simp [bp_linearity, gemmNT, viewCols]

/-- C6 amended: `bp_linearity` overwrites the whole gradient matrix, so row
`N` of `dW` is all zeros after a backward step exactly when the incoming
error-signal view's augmentation row is zero (the documented `D` structure
convention); under that hypothesis it is zero. -/
theorem bp_aug_row_zero {N P B : ℕ} (b : ℕ) (hb : b ≤ B) (m : ℕ)
    (W : Matrix (Fin (N + 1)) (Fin (P + 1)) ℝ)
    (Enext : Matrix (Fin (N + 1)) (Fin B) ℝ)
    (Aprev : Matrix (Fin (P + 1)) (Fin B) ℝ)
    (Eold : Matrix (Fin (P + 1)) (Fin b) ℝ)
    (dWold : Matrix (Fin (N + 1)) (Fin (P + 1)) ℝ)
    (hAug : ∀ j : Fin B, (j : ℕ) < b → Enext ⟨N, Nat.lt_succ_self N⟩ j = 0) :
    ∀ j : Fin (P + 1),
      (bp_linearity b hb m W Enext Aprev Eold dWold).2 ⟨N, Nat.lt_succ_self N⟩ j
        = 0 := by
  intro j
  have hz : ∀ l : Fin b, Enext ⟨N, Nat.lt_succ_self N⟩ (Fin.castLE hb l) = 0 :=
    fun l => hAug _ l.isLt
  simp [bp_linearity, gemmNT, viewCols, hz]

/-- Witness for the amended C6 at a concrete backward step whose incoming
error signal has a zero augmentation row. -/
theorem bp_aug_row_zero_witness :
    (∀ j : Fin 1, (j : ℕ) < 1 →
        (!![1; 0] : Matrix (Fin 2) (Fin 1) ℝ) ⟨1, Nat.lt_succ_self 1⟩ j = 0)
    ∧ ∀ j : Fin 1,
        (bp_linearity (N := 1) (P := 0) (B := 1) 1 (le_refl 1) 1
            !![(0 : ℝ); 0] !![1; 0] !![1] 0 0).2 ⟨1, Nat.lt_succ_self 1⟩ j
          = 0 := by
  have hAug : ∀ j : Fin 1, (j : ℕ) < 1 →
      (!![1; 0] : Matrix (Fin 2) (Fin 1) ℝ) ⟨1, Nat.lt_succ_self 1⟩ j = 0 := by
    intro j hj
    fin_cases j
    rfl
  exact ⟨hAug, bp_aug_row_zero 1 (le_refl 1) 1 !![(0 : ℝ); 0] !![1; 0] !![1]
    0 0 hAug⟩

/-- C7: `computeCost` sums the per-process partial norm sums into the grand
total of the column two-norms (the collective sum reduction) and divides by
the global row count of the norms vector; it returns `0` on an all-zero
residual, and `v / rowCount` when exactly one column has norm `v`. -/
theorem computeCost_spec {h w np : ℕ} (D : Matrix (Fin h) (Fin w) ℝ)
    (owner : Fin w → Fin np) :
    computeCost D owner = (∑ j, columnTwoNorms D j) / w
    ∧ computeCost (0 : Matrix (Fin h) (Fin w) ℝ) owner = 0
    ∧ (∀ (c : Fin w) (v : ℝ),
        (∀ j, columnTwoNorms D j = if j = c then v else 0) →
        computeCost D owner = v / w) := by
  have htotal : ∀ E : Matrix (Fin h) (Fin w) ℝ,
      computeCost E owner = (∑ j, columnTwoNorms E j) / w := by
    intro E
    unfold computeCost localNormSum
    rw [Finset.sum_fiberwise Finset.univ owner (columnTwoNorms E)]
  refine ⟨htotal D, ?_, ?_⟩
  · rw [htotal]
    simp [columnTwoNorms]
  · intro c v hv
    rw [htotal D]
    simp only [hv]
    rw [Finset.sum_ite_eq' Finset.univ c (fun _ => v)]
    simp

/-- Witness for C7: the residual `D5` has exactly one nonzero column, of
norm 5, and `computeCost` returns `5` divided by the norms-vector height
`2`. -/
theorem computeCost_spec_witness :
    (∀ j : Fin 2, columnTwoNorms D5 j = if j = 0 then (5 : ℝ) else 0)
    ∧ computeCost D5 owner1 = 5 / ((2 : ℕ) : ℝ) := by
  have hv : ∀ j : Fin 2, columnTwoNorms D5 j = if j = 0 then (5 : ℝ) else 0 := by
    intro j
    fin_cases j
    · show Real.sqrt (∑ i, (D5 i 0) ^ 2) = _
      rw [show (∑ i, (D5 i 0) ^ 2) = 25 by
        simp [D5, Fin.sum_univ_two]; norm_num]
      rw [show (25 : ℝ) = 5 ^ 2 by norm_num,
        Real.sqrt_sq (by norm_num : (0 : ℝ) ≤ 5)]
      simp
    · show Real.sqrt (∑ i, (D5 i 1) ^ 2) = _
      simp [D5, Fin.sum_univ_two]
  exact ⟨hv, (computeCost_spec D5 owner1).2.2 0 5 hv⟩

/-- C8: `FullyConnectedLayer::update` hands `(dW, W)` to the optimizer for
an in-place weight update exactly in training mode; in any other mode it
makes no optimizer call and leaves the whole layer state unchanged while
still returning `true`; the base `Layer::update` is a no-op returning
`false`. -/
theorem update_training_only {N P B : ℕ} (mode : execution_mode)
    (opt : Matrix (Fin (N + 1)) (Fin (P + 1)) ℝ
      → Matrix (Fin (N + 1)) (Fin (P + 1)) ℝ
      → Matrix (Fin (N + 1)) (Fin (P + 1)) ℝ)
    (st : LayerState N P B) :
    (mode = execution_mode.training →
      FullyConnectedLayer_update mode opt st
        = ({ st with weights := opt st.weights_gradient st.weights }, true))
    ∧ (mode ≠ execution_mode.training →
      FullyConnectedLayer_update mode opt st = (st, true))
    ∧ Layer_update st = (st, false) := by
  refine ⟨fun hm => ?_, fun hm => ?_, rfl⟩ <;>
    simp [FullyConnectedLayer_update, hm]

/-- Witness for C8 at the concrete non-training mode `validation` and the
concrete state `stEx`. -/
theorem update_training_only_witness :
    (execution_mode.validation ≠ execution_mode.training
      ∧ execution_mode.training = execution_mode.training)
    ∧ FullyConnectedLayer_update execution_mode.validation
        (fun _ wmat => wmat) stEx = (stEx, true)
    ∧ FullyConnectedLayer_update execution_mode.training
        (fun _ wmat => wmat) stEx
        = ({ stEx with
              weights := (fun _ wmat => wmat) stEx.weights_gradient stEx.weights },
          true)
    ∧ Layer_update stEx = (stEx, false) := by
  have hv := update_training_only execution_mode.validation
    (fun _ wmat => wmat) stEx
  have ht := update_training_only execution_mode.training
    (fun _ wmat => wmat) stEx
  exact ⟨⟨by decide, rfl⟩, hv.2.1 (by decide), ht.1 rfl, hv.2.2⟩

/-- The sweep visits every weight entry once. -/
lemma gcIndices_length (h w : ℕ) : (gcIndices h w).length = h * w := by
  induction h with
  | zero => simp [gcIndices]
  | succ n ih =>
    simp only [gcIndices, List.range_succ, List.flatMap_append,
      List.length_append] at ih ⊢
    simp [ih.symm, gcIndices, Nat.succ_mul]

/-- Behaviour of the sweep fold: the activation deltas accumulate one
subtraction of `acts` per iteration, and the gradient accumulators are left
untouched. -/
lemma gradCheck_foldl_components {N P B : ℕ} (Epsilon : ℝ)
    (acts : Matrix (Fin (N + 1)) (Fin B) ℝ) (l : List (ℕ × ℕ))
    (st : GradCheckState N P B) :
    (l.foldl (gradCheckStep Epsilon acts) st).actsE1
        = st.actsE1 - (l.length : ℝ) • acts
    ∧ (l.foldl (gradCheckStep Epsilon acts) st).actsE2
        = st.actsE2 - (l.length : ℝ) • acts
    ∧ (l.foldl (gradCheckStep Epsilon acts) st).grad_diff = st.grad_diff
    ∧ (l.foldl (gradCheckStep Epsilon acts) st).grad_sum = st.grad_sum := by
  induction l generalizing st with
  | nil => simp
  | cons hd tl ih =>
    obtain ⟨h1, h2, h3, h4⟩ := ih (gradCheckStep Epsilon acts st hd)
    refine ⟨?_, ?_, ?_, ?_⟩
    · rw [List.foldl_cons, h1]
      ext i j
      simp only [gradCheckStep, Matrix.sub_apply, Matrix.smul_apply,
        List.length_cons, smul_eq_mul]
      push_cast
      ring
    · rw [List.foldl_cons, h2]
      ext i j
      simp only [gradCheckStep, Matrix.sub_apply, Matrix.smul_apply,
        List.length_cons, smul_eq_mul]
      push_cast
      ring
    · rw [List.foldl_cons, h3]
      rfl
    · rw [List.foldl_cons, h4]
      rfl

/-- The observable components of `checkGradient`: both activation-delta
matrices end as `-(N+1)(P+1)` times the unperturbed activations, and both
gradient accumulators end at their initial value zero. -/
lemma checkGradient_components {N P B : ℕ} (Epsilon : ℝ)
    (W : Matrix (Fin (N + 1)) (Fin (P + 1)) ℝ)
    (acts : Matrix (Fin (N + 1)) (Fin B) ℝ) :
    (checkGradient Epsilon W acts).1.actsE1
        = 0 - ((((N + 1) * (P + 1) : ℕ)) : ℝ) • acts
    ∧ (checkGradient Epsilon W acts).1.actsE2
        = 0 - ((((N + 1) * (P + 1) : ℕ)) : ℝ) • acts
    ∧ (checkGradient Epsilon W acts).1.grad_diff = 0
    ∧ (checkGradient Epsilon W acts).1.grad_sum = 0 := by
  have h := gradCheck_foldl_components Epsilon acts (gcIndices (N + 1) (P + 1))
    { wbE1 := addEntry W 0 0 Epsilon
      wbE2 := addEntry W 0 0 (-Epsilon)
      actsE1 := 0
      actsE2 := 0
      grad_diff := 0
      grad_sum := 0
      prow := 0
      pcol := 0 }
  rw [gcIndices_length] at h
  exact ⟨h.1, h.2.1, h.2.2.1, h.2.2.2⟩

/-- C9 (code-bug evidence): the live code of `checkGradient` never
re-executes a forward pass on the perturbed weight copies — its
activation-delta matrices and its returned value are identical for any two
perturbation magnitudes and any two weight matrices, so no
finite-difference comparison takes place and the accumulated ratio is never
formed. -/
theorem checkGradient_ignores_perturbation {N P B : ℕ} (e1 e2 : ℝ)
    (W W2 : Matrix (Fin (N + 1)) (Fin (P + 1)) ℝ)
    (acts : Matrix (Fin (N + 1)) (Fin B) ℝ) :
    (checkGradient e1 W acts).1.actsE1 = (checkGradient e2 W2 acts).1.actsE1
    ∧ (checkGradient e1 W acts).1.actsE2 = (checkGradient e2 W2 acts).1.actsE2
    ∧ (checkGradient e1 W acts).2 = (checkGradient e2 W2 acts).2 := by
  have ha := checkGradient_components e1 W acts
  have hb := checkGradient_components e2 W2 acts
  have hret : ∀ (e : ℝ) (V : Matrix (Fin (N + 1)) (Fin (P + 1)) ℝ),
      (checkGradient e V acts).2 = Real.sqrt (0 / 0) := by
    intro e V
    have hc := checkGradient_components e V acts
    have : (checkGradient e V acts).2
        = Real.sqrt ((checkGradient e V acts).1.grad_diff
            / (checkGradient e V acts).1.grad_sum) := rfl
    rw [this, hc.2.2.1, hc.2.2.2]
  exact ⟨by rw [ha.1, hb.1], by rw [ha.2.1, hb.2.1],
    by rw [hret e1 W, hret e2 W2]⟩

/-- C10 counterexample: after the sweep the activation delta is not the
negated unperturbed activations — with a `2 × 1` weight matrix (two
iterations) and activations all ones, entry `(0, 0)` of `Acts_E1` is `-2`,
not `-1`, because the `Axpy` subtraction accumulates across iterations. -/
theorem checkGradient_delta_counterexample :
    (checkGradient (N := 1) (P := 0) (B := 1) 1 0 actsEx).1.actsE1 0 0
      ≠ -(actsEx 0 0) := by
  have h := (checkGradient_components (N := 1) (P := 0) (B := 1) 1 0 actsEx).1
  rw [h]
  simp [actsEx]

/-- C10 amended: `checkGradient` initializes `grad_diff` and `grad_sum` to
zero and never modifies them, so the returned expression
`sqrt(grad_diff / grad_sum)` always divides zero by zero; no forward pass is
re-executed on the perturbed copies, and after the full sweep each compared
activation-delta matrix equals `-(N+1)(P+1)` times the unperturbed
activations (one subtraction per iteration, `-Acts` after the first),
regardless of the perturbation. -/
theorem checkGradient_returns_sqrt_zero_div_zero {N P B : ℕ} (Epsilon : ℝ)
    (W : Matrix (Fin (N + 1)) (Fin (P + 1)) ℝ)
    (acts : Matrix (Fin (N + 1)) (Fin B) ℝ) :
    (checkGradient Epsilon W acts).1.grad_diff = 0
    ∧ (checkGradient Epsilon W acts).1.grad_sum = 0
    ∧ (checkGradient Epsilon W acts).2 = Real.sqrt (0 / 0)
    ∧ (checkGradient Epsilon W acts).1.actsE1
        = -((((N + 1) * (P + 1) : ℕ)) : ℝ) • acts
    ∧ (checkGradient Epsilon W acts).1.actsE2
        = -((((N + 1) * (P + 1) : ℕ)) : ℝ) • acts := by
  have hc := checkGradient_components Epsilon W acts
  have hret : (checkGradient Epsilon W acts).2
      = Real.sqrt ((checkGradient Epsilon W acts).1.grad_diff
          / (checkGradient Epsilon W acts).1.grad_sum) := rfl
  refine ⟨hc.2.2.1, hc.2.2.2, ?_, ?_, ?_⟩
  · rw [hret, hc.2.2.1, hc.2.2.2]
  · rw [hc.1, zero_sub, neg_smul]
  · rw [hc.2.1, zero_sub, neg_smul]

end LBann
